import Mathlib

/-! feedforward: webhook rate limiter and polling loop.

A shallow embedding of

* `internal/app/webhook/webhookratelimit.go` (the sliding-window rate limiter), and
* `main.go` (`NewApp` and the polling loop `run`),

followed by theorems about them.

Modelling conventions.

* A `time.Time` is the instant it denotes, an integer number of nanoseconds since the Unix
  epoch.  Go stores an instant as 64-bit seconds plus nanoseconds, a range of several hundred
  billion years; the model is exact for every instant inside that range.
* A `time.Duration` is a signed 64-bit nanosecond count; `Time.Sub` saturates at the two ends,
  and so does `Sub` below.
* Every reading of a clock is an explicit argument.  The limiter's injected clock
  (`rl.clock.Now()`) and the system clock (`time.Now()`, which `time.Until` reads) are separate
  arguments.
-/

namespace Feedforward

/-! ## Time -/

/-- An instant in nanoseconds since the Unix epoch (`time.Time`). -/
abbrev Time := Int

/-- A span in nanoseconds (`time.Duration`). -/
abbrev Duration := Int

/-- The constant `time.Second`. -/
def Second : Duration := 1000000000

/-- The constant `time.Hour`. -/
def Hour : Duration := 3600 * Second

/-- The smallest `time.Duration`. -/
def minDuration : Duration := -9223372036854775808

/-- The largest `time.Duration`. -/
def maxDuration : Duration := 9223372036854775807

/-- The method `t.Add(d)`. -/
def Add (t : Time) (d : Duration) : Time := t + d

/-- The method `t.After(u)`. -/
def After (t u : Time) : Bool := decide (u < t)

/-- The method `t.Before(u)`. -/
def Before (t u : Time) : Bool := decide (t < u)

/-- The method `a.Compare(b)`. -/
def Compare (a b : Time) : Int := if a < b then -1 else if b < a then 1 else 0

/-- The method `t.Sub(u)`: the difference, saturated to the range of `time.Duration`. -/
def Sub (t u : Time) : Duration :=
  if t - u < minDuration then minDuration
  else if maxDuration < t - u then maxDuration
  else t - u

/-- The function `time.Until(t)`, which is `t.Sub(time.Now())`; `sysNow` is the reading of the
system clock taken by that call. -/
def Until (sysNow : Time) (t : Time) : Duration := Sub t sysNow

/-- The function `slices.MinFunc`: the first minimal element under `cmp`; `none` stands for the
panic on an empty slice. -/
def MinFunc (x : List Time) (cmp : Time → Time → Int) : Option Time :=
  match x with
  | [] => none
  | m :: rest => some (rest.foldl (fun m v => if cmp v m < 0 then v else m) m)

/-! ## webhookratelimit.go -/

/-- The constant `webhookRateLimitPeriod`. -/
def webhookRateLimitPeriod : Duration := 60 * Second

/-- The constant `webhookRateLimitRequests`. -/
def webhookRateLimitRequests : Int := 30

/-- The struct `webhookRateLimit`.  Its `clock` field is an interface whose readings are passed
to the methods below as arguments. -/
structure webhookRateLimit where
  s : List Time
deriving DecidableEq, Repr

/-- The constructor `newWebhookRateLimit`. -/
def newWebhookRateLimit : webhookRateLimit := { s := [] }

/-- The method `record`; `now` is the reading returned by `rl.clock.Now()`. -/
def webhookRateLimit.record (rl : webhookRateLimit) (now : Time) : webhookRateLimit :=
  { s := rl.s ++ [now] }

/-- The result of one call of `calc`: the limiter afterwards and the two returned values. -/
structure CalcResult where
  rl : webhookRateLimit
  remaining : Int
  reset : Duration
deriving DecidableEq, Repr

/-- The method `calc`; `now` is the reading returned by `rl.clock.Now()` and `sysNow` the reading
of the system clock taken inside `time.Until`. -/
def webhookRateLimit.calc (rl : webhookRateLimit) (now sysNow : Time) : CalcResult :=
  let deadline := Add now (-webhookRateLimitPeriod)
  let s2 := rl.s.filter (fun v => After v deadline)
  let remaining := max 0 (webhookRateLimitRequests - (s2.length : Int))
  let reset : Duration :=
    if s2.length = 0 then 0
    else
      match MinFunc s2 Compare with
      | some oldest => Until sysNow (Add oldest webhookRateLimitPeriod)
      | none => 0
  { rl := { s := s2 }, remaining := remaining, reset := reset }

/-! ### Runs of the limiter -/

/-- One call on a limiter. -/
inductive Op where
  | calc (now sysNow : Time)
  | record (now : Time)
deriving DecidableEq, Repr

/-- The timestamps that the `record` calls of a sequence append, in call order. -/
def recordedTimestamps : List Op → List Time
  | [] => []
  | Op.calc _ _ :: ops => recordedTimestamps ops
  | Op.record now :: ops => now :: recordedTimestamps ops

/-- Whether the clock reading `now` is not earlier than the previous reading, if there is one. -/
def notBefore (last : Option Time) (now : Time) : Bool :=
  match last with
  | none => true
  | some l => decide (l ≤ now)

/-- The usage discipline of a run that continues from limiter `rl`: the injected clock never goes
backwards (`last` is its previous reading), and every `record` directly follows a `calc` at the
same clock reading that returned `remaining > 0` (`granted` holds that reading when the call just
before was such a `calc`). -/
def disciplined (rl : webhookRateLimit) (last granted : Option Time) : List Op → Bool
  | [] => true
  | Op.calc now sysNow :: ops =>
      notBefore last now &&
        disciplined (rl.calc now sysNow).rl (some now)
          (if 0 < (rl.calc now sysNow).remaining then some now else none) ops
  | Op.record now :: ops =>
      decide (granted = some now) && disciplined (rl.record now) (some now) none ops

/-- The number of timestamps of `ts` inside the half-open interval `[a, a + 60 s)`. -/
def countInWindow (ts : List Time) (a : Time) : Nat :=
  (ts.filter (fun t => decide (a ≤ t) && decide (t < a + webhookRateLimitPeriod))).length

/-! ## main.go -/

/-- The constant `oldest`. -/
def oldest : Duration := 24 * Hour

/-- The zero value of `time.Time`: January 1 of year 1, 00:00:00 UTC. -/
def zeroTime : Time := -62135596800 * Second

/-- The method `t.IsZero()`. -/
def IsZero (t : Time) : Bool := decide (t = zeroTime)

/-- The instant read back by `time.Parse(time.RFC3339, ·)` from `t.Format(time.RFC3339)`: the
layout `time.RFC3339` has no fractional seconds, so the instant is cut down to its whole second
(for the years 0000 to 9999 that the layout can express). -/
def formatRFC3339 (t : Time) : Time := t - Int.emod t Second

/-- A Go `map[string]V` as the list of its entries, the keys distinct.  Go leaves the iteration
order of a map unspecified; the order of the list stands for one such order. -/
abbrev GoMap (V : Type) := List (String × V)

/-- The lookup `m[k]` with its `ok` flag. -/
def mapGet {V : Type} : GoMap V → String → Option V
  | [], _ => none
  | (k1, v1) :: m, k => if k1 = k then some v1 else mapGet m k

/-- The assignment `m[k] = v`. -/
def mapSet {V : Type} : GoMap V → String → V → GoMap V
  | [], k, v => [(k, v)]
  | (k1, v1) :: m, k, v => if k1 = k then (k, v) :: m else (k1, v1) :: mapSet m k v

/-- The struct `configFeed`. -/
structure configFeed where
  Name : String
  URL : String
  Webhook : String
deriving DecidableEq, Repr

/-- The struct `configWebhook`. -/
structure configWebhook where
  Name : String
  URL : String
deriving DecidableEq, Repr

/-- The struct `configMain`. -/
structure configMain where
  Feeds : List configFeed
  Webhooks : List configWebhook
deriving DecidableEq, Repr

/-- The struct `app`.  Its field `db` is a handle to the store; the contents of the store are
passed to the polling loop as a `Bucket`. -/
structure app where
  config : configMain
  webhooks : GoMap String
deriving DecidableEq, Repr

/-- The process exit of `log.Fatalf` in `NewApp`, with the two values of its message. -/
inductive Fatal where
  | invalidWebhook (webhook feed : String)
deriving DecidableEq, Repr

/-- What `NewApp` produces when it returns: the app, and the webhook names for which
`slog.Warn("Webhook defined, but not used", ...)` was called. -/
structure NewAppResult where
  app : app
  warnings : List String
deriving DecidableEq, Repr

/-- The first loop of `NewApp`: `webhooks[x.Name] = x.URL` for every configured webhook. -/
def buildWebhooks : GoMap String → List configWebhook → GoMap String
  | webhooks, [] => webhooks
  | webhooks, x :: xs => buildWebhooks (mapSet webhooks x.Name x.URL) xs

/-- The second loop of `NewApp`: a feed whose webhook is not in the table is fatal, every other
feed marks its webhook as used. -/
def markUsed (webhooks : GoMap String) : GoMap Bool → List configFeed → Except Fatal (GoMap Bool)
  | webhooksUsed, [] => Except.ok webhooksUsed
  | webhooksUsed, x :: xs =>
      match mapGet webhooks x.Webhook with
      | none => Except.error (Fatal.invalidWebhook x.Webhook x.Name)
      | some _ => markUsed webhooks (mapSet webhooksUsed x.Webhook true) xs

/-- The third loop of `NewApp`: a warning for every entry of `webhooksUsed` whose value is
false. -/
def warnUnused : GoMap Bool → List String
  | [] => []
  | (k, v) :: m => if !v then k :: warnUnused m else warnUnused m

/-- The function `NewApp`. -/
def NewApp (config : configMain) : Except Fatal NewAppResult :=
  let webhooks := buildWebhooks [] config.Webhooks
  match markUsed webhooks [] config.Feeds with
  | Except.error e => Except.error e
  | Except.ok webhooksUsed =>
      Except.ok { app := { config := config, webhooks := webhooks },
                  warnings := warnUnused webhooksUsed }

/-- The fields of `gofeed.Item` that `run` reads; `PublishedParsed` is a pointer, `none` when it
is nil. -/
structure Item where
  Title : String
  Link : String
  Content : String
  PublishedParsed : Option Time
deriving DecidableEq, Repr

/-- The fields of `gofeed.Feed` that `run` reads. -/
structure Feed where
  Title : String
  Items : List Item
deriving DecidableEq, Repr

/-- One call `sendItemToWebhook(title, item, url)`. -/
structure Sent where
  title : String
  item : Item
  url : String
deriving DecidableEq, Repr

/-- The bucket `feeds` of the store: for every key the instant that `time.Parse(time.RFC3339, ·)`
reads from the stored bytes, `none` when they do not parse.  The store itself is taken to work:
a `View` or `Update` that fails is outside the model. -/
abbrev Bucket := GoMap (Option Time)

/-- The local `lastPublished` after the `a.db.View` block. -/
def readLastPublished (db : Bucket) (url : String) : Time :=
  match mapGet db url with
  | some (some t) => t
  | _ => zeroTime

/-- The state in which the loop over `feed.Items` ends: the calls of `sendItemToWebhook` in call
order, the local `newest`, and whether the loop ended in a nil-pointer panic. -/
structure ItemsResult where
  sent : List Sent
  newest : Time
  panicked : Bool
deriving DecidableEq, Repr

/-- The loop `for _, item := range feed.Items` of `run`, from the item at index `i` on.
`clock i` is the reading of `time.Now()` in the check of the item at index `i`.  The method
calls on `item.PublishedParsed` dereference the pointer, so a nil pointer panics. -/
def itemsLoop (clock : Nat → Time) (lastPublished : Time) (title url : String) :
    Nat → Time → List Item → ItemsResult
  | _, newest, [] => { sent := [], newest := newest, panicked := false }
  | i, newest, item :: rest =>
      match item.PublishedParsed with
      | none => { sent := [], newest := newest, panicked := true }
      | some p =>
          if !After p lastPublished then
            itemsLoop clock lastPublished title url (i + 1) newest rest
          else if Before p (Add (clock i) (-oldest)) then
            itemsLoop clock lastPublished title url (i + 1) newest rest
          else
            let r := itemsLoop clock lastPublished title url (i + 1)
              (if After p newest then p else newest) rest
            { r with sent := { title := title, item := item, url := url } :: r.sent }

/-- What the world answers during the check of one feed: the feed returned by
`fp.ParseURL(cf.URL)` (`none` when it returns an error, the feed then being nil), the readings of
`time.Now()`, and whether `ctx.Done()` is closed at the `select` before the feed. -/
structure Env where
  parsed : Option Feed
  clock : Nat → Time
  done : Bool

/-- The state after one iteration of the loop over `a.config.Feeds`. -/
structure FeedResult where
  sent : List Sent
  db : Bucket
  panicked : Bool
deriving DecidableEq, Repr

/-- One iteration of the loop `for _, cf := range a.config.Feeds` of `run`, after its `select`:
read the stored timestamp, fetch the feed, send the items, store `newest`. -/
def checkFeed (a : app) (db : Bucket) (env : Env) (cf : configFeed) : FeedResult :=
  let lastPublished := readLastPublished db cf.URL
  match env.parsed with
  | none => { sent := [], db := db, panicked := true }
  | some feed =>
      let r := itemsLoop env.clock lastPublished feed.Title
        ((mapGet a.webhooks cf.Webhook).getD "") 0 zeroTime feed.Items
      if r.panicked then { sent := r.sent, db := db, panicked := true }
      else if !IsZero r.newest then
        { sent := r.sent, db := mapSet db cf.URL (some (formatRFC3339 r.newest)),
          panicked := false }
      else { sent := r.sent, db := db, panicked := false }

/-- How one pass over the feeds ends. -/
inductive PassEnd where
  | completed
  | cancelled
  | panicked
deriving DecidableEq, Repr

/-- The state after one pass of the loop over `a.config.Feeds`. -/
structure PassResult where
  sent : List Sent
  db : Bucket
  ending : PassEnd
  checked : Nat
deriving DecidableEq, Repr

/-- The loop `for _, cf := range a.config.Feeds` of `run`, from the feed at index `j` on; `env j`
is what the world answers during the check of the feed at index `j`, and `checked` counts the
feeds whose check ran to its end. -/
def feedsLoop (a : app) (env : Nat → Env) : Nat → Bucket → List configFeed → PassResult
  | _, db, [] => { sent := [], db := db, ending := PassEnd.completed, checked := 0 }
  | j, db, cf :: rest =>
      if (env j).done then { sent := [], db := db, ending := PassEnd.cancelled, checked := 0 }
      else
        let r := checkFeed a db (env j) cf
        if r.panicked then
          { sent := r.sent, db := r.db, ending := PassEnd.panicked, checked := 0 }
        else
          let r2 := feedsLoop a env (j + 1) r.db rest
          { r2 with sent := r.sent ++ r2.sent, checked := r2.checked + 1 }

/-- One pass of `run` over all configured feeds. -/
def checkFeeds (a : app) (env : Nat → Env) (db : Bucket) : PassResult :=
  feedsLoop a env 0 db a.config.Feeds

/-- The `published_at` values of a list of calls, in call order (a nil pointer never reaches a
call). -/
def publishedOf (sent : List Sent) : List Time :=
  sent.filterMap (fun e => e.item.PublishedParsed)

/-! ## Concrete inputs

The configuration is that of `TestApp` in `internal/app/app_test.go`: one feed `feed1` at
`https://www.example.com/feed` that posts to the webhook `hook1`, and the clock reading
2024-08-22 12:00:00 UTC. -/

/-- The clock reading of `TestApp`: 2024-08-22 12:00:00 UTC. -/
def testNow : Time := 1724328000 * Second

/-- The feed entry of the configuration of `TestApp`. -/
def feed1 : configFeed :=
  { Name := "feed1", URL := "https://www.example.com/feed", Webhook := "hook1" }

/-- The webhook entry of the configuration of `TestApp`. -/
def hook1 : configWebhook := { Name := "hook1", URL := "https://www.example.com/hook" }

/-- The configuration of `TestApp`. -/
def testConfig : configMain := { Feeds := [feed1], Webhooks := [hook1] }

/-- The app that `NewApp` builds from `testConfig`. -/
def testApp : app :=
  { config := testConfig, webhooks := [("hook1", "https://www.example.com/hook")] }

/-- An item published one hour before `testNow`. -/
def hourOldItem : Item :=
  { Title := "one", Link := "https://www.example.com/1", Content := "<p>one</p>",
    PublishedParsed := some (testNow - Hour) }

/-- An item published two hours before `testNow`. -/
def twoHoursOldItem : Item :=
  { Title := "two", Link := "https://www.example.com/2", Content := "<p>two</p>",
    PublishedParsed := some (testNow - 2 * Hour) }

/-- An item published half a second before `testNow`: its timestamp has a fractional
second. -/
def halfSecondItem : Item :=
  { Title := "half", Link := "https://www.example.com/3", Content := "<p>half</p>",
    PublishedParsed := some (testNow - 500000000) }

/-- A successful fetch at a clock that reads `now` throughout. -/
def fetched (items : List Item) (now : Time) : Env :=
  { parsed := some { Title := "Example", Items := items }, clock := fun _ => now,
    done := false }

/-- A failed fetch: `fp.ParseURL` returns an error and no feed. -/
def fetchFailed (now : Time) : Env :=
  { parsed := none, clock := fun _ => now, done := false }

/-- A second feed entry, for the same webhook. -/
def feed2 : configFeed :=
  { Name := "feed2", URL := "https://www.example.com/feed2", Webhook := "hook1" }

/-- An app with the two feeds `feed1` and `feed2`. -/
def twoFeedsApp : app :=
  { config := { Feeds := [feed1, feed2], Webhooks := [hook1] },
    webhooks := [("hook1", "https://www.example.com/hook")] }

/-- A pass in which the fetch of the first feed fails and the fetch of the second returns a
fresh item. -/
def firstFetchFails : Nat → Env
  | 0 => fetchFailed testNow
  | _ => fetched [hourOldItem] testNow

/-- A webhook entry that no feed names. -/
def hook2 : configWebhook := { Name := "hook2", URL := "https://www.example.com/hook2" }

/-- The configuration of `TestApp` with the unused webhook `hook2` added. -/
def unusedHookConfig : configMain := { Feeds := [feed1], Webhooks := [hook1, hook2] }

/-- A configuration whose feed names a webhook that is not configured. -/
def unknownHookConfig : configMain :=
  { Feeds := [{ Name := "feed1", URL := "https://www.example.com/feed", Webhook := "hook9" }],
    Webhooks := [hook1] }

/-! ## Theorems: the rate limiter -/

/-- The timestamps that `calc` retains are those strictly later than `now - 60 s`. -/
theorem calc_s (rl : webhookRateLimit) (now sysNow : Time) :
    (rl.calc now sysNow).rl.s
      = rl.s.filter (fun v => decide (now - webhookRateLimitPeriod < v)) := by
  simp [webhookRateLimit.calc, After, Add, sub_eq_add_neg]

/-- The value `remaining` that `calc` returns. -/
theorem calc_remaining (rl : webhookRateLimit) (now sysNow : Time) :
    (rl.calc now sysNow).remaining
      = max 0 (webhookRateLimitRequests - ((rl.calc now sysNow).rl.s.length : Int)) := by
  simp [webhookRateLimit.calc]

/-- Filtering by a later deadline absorbs filtering by an earlier one. -/
theorem filter_deadline_absorb (l : List Time) (d1 d2 : Time) (h : d1 ≤ d2) :
    (l.filter (fun v => decide (d1 < v))).filter (fun v => decide (d2 < v))
      = l.filter (fun v => decide (d2 < v)) := by
  rw [List.filter_filter]
  apply List.filter_congr
  intro x _
  by_cases hx : d2 < x
  · have : d1 < x := lt_of_le_of_lt h hx
    simp [hx, this]
  · simp [hx]

/-- Invariant of a disciplined run: `H` is the list of timestamps recorded so far. -/
theorem disciplined_window_aux (ops : List Op) :
    ∀ (rl : webhookRateLimit) (H : List Time) (last granted : Option Time),
      (∀ L, notBefore last L = true →
        H.filter (fun v => decide (L - webhookRateLimitPeriod < v))
          = rl.s.filter (fun v => decide (L - webhookRateLimitPeriod < v))) →
      (∀ g, granted = some g → last = some g ∧ rl.s.length < 30) →
      (∀ a, countInWindow H a ≤ 30) →
      disciplined rl last granted ops = true →
      ∀ a, countInWindow (H ++ recordedTimestamps ops) a ≤ 30 := by
  induction ops with
  | nil =>
    intro rl H last granted _ _ hc _ a
    simpa [recordedTimestamps] using hc a
  | cons op ops ih =>
    intro rl H last granted ha hb hc hd a
    rcases op with ⟨now, sysNow⟩ | ⟨now⟩
    · simp only [disciplined, Bool.and_eq_true] at hd
      obtain ⟨hn, hd⟩ := hd
      simp only [recordedTimestamps]
      refine ih (rl.calc now sysNow).rl H (some now) _ ?_ ?_ hc hd a
      · intro L hL
        have hL2 : now ≤ L := by simpa [notBefore] using hL
        have hL1 : notBefore last L = true := by
          cases last with
          | none => rfl
          | some l =>
            have : l ≤ now := by simpa [notBefore] using hn
            simpa [notBefore] using le_trans this hL2
        rw [ha L hL1, calc_s, filter_deadline_absorb]
        linarith
      · intro g hg
        by_cases hr : 0 < (rl.calc now sysNow).remaining
        · rw [if_pos hr] at hg
          refine ⟨hg, ?_⟩
          rw [calc_remaining] at hr
          have : (0 : Int) < webhookRateLimitRequests
              - ((rl.calc now sysNow).rl.s.length : Int) := by
            rcases lt_max_iff.mp hr with h | h
            · exact absurd h (lt_irrefl _)
            · exact h
          simp only [webhookRateLimitRequests] at this
          omega
        · rw [if_neg hr] at hg
          cases hg
    · simp only [disciplined, Bool.and_eq_true, decide_eq_true_eq] at hd
      obtain ⟨hg, hd⟩ := hd
      obtain ⟨hlast, hlen⟩ := hb now hg
      have hrec : H ++ recordedTimestamps (Op.record now :: ops)
          = (H ++ [now]) ++ recordedTimestamps ops := by
        simp [recordedTimestamps]
      rw [hrec]
      refine ih (rl.record now) (H ++ [now]) (some now) none ?_ ?_ ?_ hd a
      · intro L hL
        have hL1 : notBefore last L = true := by rw [hlast]; exact hL
        simp only [webhookRateLimit.record, List.filter_append, ha L hL1]
      · intro g hg2
        cases hg2
      · intro b
        by_cases hw : b ≤ now ∧ now < b + webhookRateLimitPeriod
        · have h1 : countInWindow H b
              ≤ (H.filter (fun v => decide (now - webhookRateLimitPeriod < v))).length := by
            unfold countInWindow
            rw [← List.countP_eq_length_filter, ← List.countP_eq_length_filter]
            apply List.countP_mono_left
            intro x _ hx
            simp only [Bool.and_eq_true, decide_eq_true_eq] at hx
            simp only [decide_eq_true_eq]
            linarith [hx.1, hw.2]
          have h2 : (H.filter (fun v => decide (now - webhookRateLimitPeriod < v))).length
              ≤ rl.s.length := by
            rw [ha now (by rw [hlast]; simp [notBefore])]
            exact List.length_filter_le _ _
          have h3 : countInWindow (H ++ [now]) b = countInWindow H b + 1 := by
            unfold countInWindow
            simp [List.filter_append, List.filter_cons, hw.1, hw.2]
          omega
        · have h3 : countInWindow (H ++ [now]) b = countInWindow H b := by
            unfold countInWindow
            rw [List.filter_append]
            have : [now].filter (fun t => decide (b ≤ t)
                && decide (t < b + webhookRateLimitPeriod)) = [] := by
              rw [List.filter_cons]
              have : (decide (b ≤ now) && decide (now < b + webhookRateLimitPeriod)) = false := by
                simpa using hw
              simp [this]
            simp [this]
          rw [h3]
          exact hc b

/-- C1: in every run of the rate limiter that starts empty, in which the injected clock never
goes backwards and `record` is called only directly after a `calc` at the same clock reading that
returned `remaining > 0`, every half-open interval `[a, a + 60 s)` contains at most 30 of the
recorded timestamps. -/
theorem rate_limit_window (ops : List Op)
    (h : disciplined newWebhookRateLimit none none ops = true) (a : Time) :
    countInWindow (recordedTimestamps ops) a ≤ 30 := by
  have := disciplined_window_aux ops newWebhookRateLimit [] none none
    (by intro L _; simp [newWebhookRateLimit])
    (by intro g hg; cases hg)
    (by intro b; simp [countInWindow])
    h a
  simpa using this

/-- C1, at a concrete run: two granted requests at the readings 0 s and 5 s. -/
theorem rate_limit_window_witness :
    disciplined newWebhookRateLimit none none
        [Op.calc 0 7, Op.record 0, Op.calc (5 * Second) 9, Op.record (5 * Second)] = true
      ∧ countInWindow (recordedTimestamps
        [Op.calc 0 7, Op.record 0, Op.calc (5 * Second) 9, Op.record (5 * Second)]) 0 ≤ 30 :=
  ⟨by decide, rate_limit_window _ (by decide) 0⟩

/-- C7, refuted as stated: with the single timestamp 0 s in the state and both clocks reading
0 s, fewer than 30 timestamps remain and 29 requests remain, yet `calc` reports
`reset = 60 s`, not 0. -/
theorem calc_below_capacity_counterexample :
    ((webhookRateLimit.mk [0]).calc 0 0).rl.s.length < 30
      ∧ ((webhookRateLimit.mk [0]).calc 0 0).remaining = 29
      ∧ ((webhookRateLimit.mk [0]).calc 0 0).reset = 60 * Second
      ∧ ((webhookRateLimit.mk [0]).calc 0 0).reset ≠ 0 := by
  decide

/-- C7 (amended): if after expiry fewer than 30 timestamps remain in the state, `calc` reports
the request as allowed, `remaining` being positive and equal to 30 minus the number of retained
timestamps; it reports `reset = 0` when no timestamp remains. -/
theorem calc_below_capacity (rl : webhookRateLimit) (now sysNow : Time)
    (h : (rl.calc now sysNow).rl.s.length < 30) :
    0 < (rl.calc now sysNow).remaining
      ∧ (rl.calc now sysNow).remaining = 30 - ((rl.calc now sysNow).rl.s.length : Int)
      ∧ ((rl.calc now sysNow).rl.s = [] → (rl.calc now sysNow).reset = 0) := by
  have hr := calc_remaining rl now sysNow
  simp only [webhookRateLimitRequests] at hr
  have hpos : (0 : Int) < 30 - ((rl.calc now sysNow).rl.s.length : Int) := by omega
  refine ⟨?_, ?_, ?_⟩
  · rw [hr]; exact lt_max_of_lt_right hpos
  · rw [hr]; exact max_eq_right (le_of_lt hpos)
  · intro he
    have he2 : rl.s.filter (fun v => After v (Add now (-webhookRateLimitPeriod))) = [] := he
    simp [webhookRateLimit.calc, he2]

/-- C7 (amended), at a concrete state: one retained timestamp. -/
theorem calc_below_capacity_witness :
    ((webhookRateLimit.mk [0]).calc 0 0).rl.s.length < 30
      ∧ 0 < ((webhookRateLimit.mk [0]).calc 0 0).remaining :=
  ⟨by decide, (calc_below_capacity (webhookRateLimit.mk [0]) 0 0 (by decide)).1⟩

set_option maxRecDepth 8000 in
/-- C8, evaluated at a failing input: 30 timestamps at 0 s, the injected clock reading 0 s and
the system clock reading 10 s.  All 30 timestamps remain and `remaining = 0`, but `reset` is
50 s, computed from the system clock, and not `(0 s + 60 s) - 0 s = 60 s`. -/
theorem calc_at_capacity_reads_system_clock :
    ((webhookRateLimit.mk (List.replicate 30 0)).calc 0 (10 * Second)).rl.s.length = 30
      ∧ ((webhookRateLimit.mk (List.replicate 30 0)).calc 0 (10 * Second)).remaining = 0
      ∧ ((webhookRateLimit.mk (List.replicate 30 0)).calc 0 (10 * Second)).reset = 50 * Second
      ∧ ((webhookRateLimit.mk (List.replicate 30 0)).calc 0 (10 * Second)).reset
          ≠ (0 + webhookRateLimitPeriod) - 0 := by
  decide

/-- The fold inside `slices.MinFunc` with `Compare` returns a least element of the slice. -/
theorem foldl_min_spec (rest : List Time) :
    ∀ (m : Time),
      rest.foldl (fun m v => if Compare v m < 0 then v else m) m ∈ m :: rest
        ∧ ∀ t ∈ m :: rest, rest.foldl (fun m v => if Compare v m < 0 then v else m) m ≤ t := by
  induction rest with
  | nil =>
    intro m
    simp
  | cons v rest ih =>
    intro m
    simp only [List.foldl_cons]
    have hc : (if Compare v m < 0 then v else m) = if v < m then v else m := by
      unfold Compare
      by_cases h1 : v < m
      · simp [h1]
      · by_cases h2 : m < v <;> simp [h1, h2]
    rw [hc]
    by_cases hv : v < m
    · rw [if_pos hv]
      obtain ⟨h1, h2⟩ := ih v
      constructor
      · rcases List.mem_cons.mp h1 with h | h
        · rw [h]
          simp
        · exact List.mem_cons_of_mem _ (List.mem_cons_of_mem _ h)
      · intro t ht
        have hle := h2 v (List.mem_cons_self _ _)
        rcases List.mem_cons.mp ht with h | h
        · rw [h]
          exact le_trans hle (le_of_lt hv)
        · exact h2 t h
    · rw [if_neg hv]
      obtain ⟨h1, h2⟩ := ih m
      constructor
      · rcases List.mem_cons.mp h1 with h | h
        · rw [h]
          simp
        · exact List.mem_cons_of_mem _ (List.mem_cons_of_mem _ h)
      · intro t ht
        have hle := h2 m (List.mem_cons_self _ _)
        rcases List.mem_cons.mp ht with h | h
        · rw [h]
          exact hle
        · rcases List.mem_cons.mp h with h | h
          · rw [h]
            exact le_trans hle (not_lt.mp hv)
          · exact h2 t (List.mem_cons_of_mem _ h)

/-- What `calc` does at capacity: when 30 or more timestamps remain after expiry it returns
`remaining = 0`, and `reset` is the saturated difference between the oldest retained timestamp
plus 60 s and the reading of the system clock. -/
theorem calc_at_capacity (rl : webhookRateLimit) (now sysNow : Time)
    (h : 30 ≤ (rl.calc now sysNow).rl.s.length) :
    (rl.calc now sysNow).remaining = 0
      ∧ ∃ old ∈ (rl.calc now sysNow).rl.s,
          (∀ t ∈ (rl.calc now sysNow).rl.s, old ≤ t)
            ∧ (rl.calc now sysNow).reset = Sub (old + webhookRateLimitPeriod) sysNow := by
  constructor
  · rw [calc_remaining]
    simp only [webhookRateLimitRequests]
    apply max_eq_left
    omega
  · have hs : (rl.calc now sysNow).rl.s
        = rl.s.filter (fun v => After v (Add now (-webhookRateLimitPeriod))) := rfl
    rw [hs] at h ⊢
    cases hl : rl.s.filter (fun v => After v (Add now (-webhookRateLimitPeriod))) with
    | nil =>
      rw [hl] at h
      simp at h
    | cons m rest =>
      obtain ⟨h1, h2⟩ := foldl_min_spec rest m
      refine ⟨_, h1, h2, ?_⟩
      show (if (rl.s.filter (fun v => After v (Add now (-webhookRateLimitPeriod)))).length = 0
          then (0 : Duration)
          else
            match MinFunc (rl.s.filter (fun v => After v (Add now (-webhookRateLimitPeriod))))
              Compare with
            | some oldest => Until sysNow (Add oldest webhookRateLimitPeriod)
            | none => 0) = _
      rw [hl]
      simp [MinFunc, Until, Add]

/-- C9, refuted as stated: the timestamp 0 s equals `now - 60 s` at `now = 60 s`, so it is not
older than `now - 60 s`, yet `calc` removes it. -/
theorem calc_expiry_boundary_counterexample :
    (0 : Time) = 60 * Second - webhookRateLimitPeriod
      ∧ ¬ ((0 : Time) < 60 * Second - webhookRateLimitPeriod)
      ∧ (0 : Time) ∈ (webhookRateLimit.mk [0]).s
      ∧ (0 : Time) ∉ ((webhookRateLimit.mk [0]).calc (60 * Second) (60 * Second)).rl.s := by
  decide

/-- C9 (amended): after `calc` the state holds exactly the timestamps of the prior state that
are strictly later than `now - 60 s`, in their original order and with their multiplicities: a
timestamp `t` is removed if and only if `t ≤ now - 60 s`, so a timestamp equal to `now - 60 s`
is removed. -/
theorem calc_expiry (rl : webhookRateLimit) (now sysNow : Time) :
    (rl.calc now sysNow).rl.s
        = rl.s.filter (fun t => decide (now - webhookRateLimitPeriod < t))
      ∧ (∀ t ∈ rl.s, (t ∉ (rl.calc now sysNow).rl.s ↔ t ≤ now - webhookRateLimitPeriod))
      ∧ (∀ t, t ∈ (rl.calc now sysNow).rl.s → t ∈ rl.s) := by
  refine ⟨calc_s rl now sysNow, ?_, ?_⟩
  · intro t ht
    rw [calc_s, List.mem_filter]
    simp [ht]
  · intro t ht
    rw [calc_s, List.mem_filter] at ht
    exact ht.1

/-! ## Theorems: the polling loop -/

/-- What a call of `sendItemToWebhook` in the item loop says about its item: it sits at some
index `k` of the list, carries a timestamp later than `lastPublished`, and passed the freshness
check against the clock reading taken for it. -/
theorem itemsLoop_sent (clock : Nat → Time) (lastPublished : Time) (title url : String)
    (items : List Item) :
    ∀ (i : Nat) (newest : Time) (e : Sent),
      e ∈ (itemsLoop clock lastPublished title url i newest items).sent →
      ∃ k p, items[k]? = some e.item ∧ e.item.PublishedParsed = some p
        ∧ After p lastPublished = true
        ∧ Before p (Add (clock (i + k)) (-oldest)) = false := by
  induction items with
  | nil =>
    intro i newest e he
    simp [itemsLoop] at he
  | cons item rest ih =>
    intro i newest e he
    have shift : ∀ (nw : Time),
        e ∈ (itemsLoop clock lastPublished title url (i + 1) nw rest).sent →
        ∃ k p, (item :: rest)[k]? = some e.item ∧ e.item.PublishedParsed = some p
          ∧ After p lastPublished = true
          ∧ Before p (Add (clock (i + k)) (-oldest)) = false := by
      intro nw h
      obtain ⟨k, p, h1, h2, h3, h4⟩ := ih (i + 1) nw e h
      refine ⟨k + 1, p, by simpa using h1, h2, h3, ?_⟩
      have : i + (k + 1) = i + 1 + k := by omega
      rw [this]
      exact h4
    unfold itemsLoop at he
    cases hp : item.PublishedParsed with
    | none =>
      rw [hp] at he
      simp at he
    | some p =>
      rw [hp] at he
      simp only at he
      by_cases h1 : After p lastPublished = true
      · by_cases h2 : Before p (Add (clock i) (-oldest)) = true
        · simp only [h1, h2, Bool.not_true, if_true] at he
          exact shift _ he
        · simp only [h1, h2, Bool.not_true] at he
          simp only [Bool.false_eq_true, if_false, List.mem_cons] at he
          rcases he with he | he
          · refine ⟨0, p, ?_, ?_, h1, ?_⟩
            · simp [he]
            · simp [he, hp]
            · simpa using h2
          · exact shift _ he
      · simp only [h1, Bool.not_false, if_true] at he
        exact shift _ he

/-- The items sent by the item loop form a sublist of the fetched items: the loop sends in the
order of the feed. -/
theorem itemsLoop_sublist (clock : Nat → Time) (lastPublished : Time) (title url : String)
    (items : List Item) :
    ∀ (i : Nat) (newest : Time),
      ((itemsLoop clock lastPublished title url i newest items).sent.map Sent.item).Sublist
        items := by
  induction items with
  | nil =>
    intro i newest
    simp [itemsLoop]
  | cons item rest ih =>
    intro i newest
    unfold itemsLoop
    cases hp : item.PublishedParsed with
    | none => simp
    | some p =>
      simp only
      split
      · exact (ih _ _).cons _
      · split
        · exact (ih _ _).cons _
        · simp only [List.map_cons]
          exact (ih _ _).cons₂ _

/-- The calls made by one check of a feed are those of its item loop. -/
theorem checkFeed_sent (a : app) (db : Bucket) (env : Env) (cf : configFeed) (feed : Feed)
    (h : env.parsed = some feed) :
    (checkFeed a db env cf).sent
      = (itemsLoop env.clock (readLastPublished db cf.URL) feed.Title
          ((mapGet a.webhooks cf.Webhook).getD "") 0 zeroTime feed.Items).sent := by
  unfold checkFeed
  rw [h]
  simp only
  split
  · rfl
  · split <;> rfl

/-- A check of a feed whose fetch failed sends nothing. -/
theorem checkFeed_sent_none (a : app) (db : Bucket) (env : Env) (cf : configFeed)
    (h : env.parsed = none) : (checkFeed a db env cf).sent = [] := by
  unfold checkFeed
  rw [h]

/-- Every call made during a pass over the feeds is made by the check of one of the feeds. -/
theorem feedsLoop_sent (a : app) (env : Nat → Env) (cfs : List configFeed) :
    ∀ (j : Nat) (db : Bucket) (e : Sent), e ∈ (feedsLoop a env j db cfs).sent →
      ∃ m cf db2, cfs[m]? = some cf ∧ e ∈ (checkFeed a db2 (env (j + m)) cf).sent := by
  induction cfs with
  | nil =>
    intro j db e he
    simp [feedsLoop] at he
  | cons cf rest ih =>
    intro j db e he
    unfold feedsLoop at he
    split at he
    · simp at he
    · simp only at he
      split at he
      · exact ⟨0, cf, db, by simp, by simpa using he⟩
      · simp only [List.mem_append] at he
        rcases he with he | he
        · exact ⟨0, cf, db, by simp, by simpa using he⟩
        · obtain ⟨m, cf2, db2, h1, h2⟩ := ih _ _ e he
          refine ⟨m + 1, cf2, db2, by simpa using h1, ?_⟩
          have : j + (m + 1) = j + 1 + m := by omega
          rw [this]
          exact h2

/-- C2: whatever the fetched item lists, the stored timestamps and the clock readings, every
item that a pass of the polling loop of `run` sends to a webhook carries a published timestamp
that is not earlier than `now - oldest`, `now` being the reading of `time.Now()` in the check of
that item: `published_at ≥ now - oldest`. -/
theorem run_sends_only_fresh (a : app) (env : Nat → Env) (db : Bucket) (e : Sent)
    (he : e ∈ (checkFeeds a env db).sent) :
    ∃ j k feed p, (env j).parsed = some feed ∧ feed.Items[k]? = some e.item
      ∧ e.item.PublishedParsed = some p
      ∧ ¬ (p < (env j).clock k - oldest)
      ∧ (env j).clock k - oldest ≤ p := by
  obtain ⟨m, cf, db2, _, h2⟩ := feedsLoop_sent a env a.config.Feeds 0 db e he
  cases hparsed : (env (0 + m)).parsed with
  | none =>
    rw [checkFeed_sent_none a db2 _ cf hparsed] at h2
    simp at h2
  | some feed =>
    rw [checkFeed_sent a db2 _ cf feed hparsed] at h2
    obtain ⟨k, p, h3, h4, _, h6⟩ := itemsLoop_sent _ _ _ _ _ _ _ _ h2
    have h7 : ¬ (p < (env (0 + m)).clock (0 + k) - oldest) := by
      simpa [Before, Add, sub_eq_add_neg] using h6
    simp only [Nat.zero_add] at h7 hparsed
    exact ⟨m, k, feed, p, hparsed, h3, h4, h7, not_lt.mp h7⟩

/-- C2, at a concrete pass: the feed of `TestApp` with one item published an hour ago. -/
theorem run_sends_only_fresh_witness :
    ({ title := "Example", item := hourOldItem, url := "https://www.example.com/hook" } : Sent)
        ∈ (checkFeeds testApp (fun _ => fetched [hourOldItem] testNow) []).sent
      ∧ ∃ (_ : Nat) (k : Nat) (feed : Feed) (p : Time),
          (fetched [hourOldItem] testNow).parsed = some feed
          ∧ feed.Items[k]? = some hourOldItem
          ∧ hourOldItem.PublishedParsed = some p
          ∧ ¬ (p < (fetched [hourOldItem] testNow).clock k - oldest)
          ∧ (fetched [hourOldItem] testNow).clock k - oldest ≤ p :=
  ⟨by decide,
    run_sends_only_fresh testApp (fun _ => fetched [hourOldItem] testNow) []
      { title := "Example", item := hourOldItem, url := "https://www.example.com/hook" }
      (by decide)⟩

/-- C3, evaluated at a failing input: a feed whose single item was published half a second
before the clock reading of the first poll.  The first poll sends the item and stores its
timestamp in the layout `time.RFC3339`, which drops the half second; the second poll, five
seconds later on the same item list, reads that value back, finds the item later than it, and
sends the item again. -/
theorem second_poll_resends :
    (checkFeed testApp [] (fetched [halfSecondItem] testNow) feed1).sent.length = 1
      ∧ (checkFeed testApp [] (fetched [halfSecondItem] testNow) feed1).db
          = [("https://www.example.com/feed", some (testNow - Second))]
      ∧ (fetched [halfSecondItem] (testNow + 5 * Second)).parsed
          = (fetched [halfSecondItem] testNow).parsed
      ∧ (checkFeed testApp (checkFeed testApp [] (fetched [halfSecondItem] testNow) feed1).db
          (fetched [halfSecondItem] (testNow + 5 * Second)) feed1).sent
          = [{ title := "Example", item := halfSecondItem,
               url := "https://www.example.com/hook" }] := by
  decide

/-- C4, evaluated at failing inputs: whenever `fp.ParseURL` returns an error and no feed, the
check of the feed ends in a nil-pointer panic; in a pass over two feeds of which the first
fetch fails, the pass ends in that panic before the second feed, whose fetch would have
delivered an item, is checked. -/
theorem failed_fetch_panics (a : app) (db : Bucket) (clock : Nat → Time) (done : Bool)
    (cf : configFeed) :
    (checkFeed a db { parsed := none, clock := clock, done := done } cf).panicked = true
      ∧ (checkFeeds twoFeedsApp firstFetchFails []).ending = PassEnd.panicked
      ∧ (checkFeeds twoFeedsApp firstFetchFails []).checked = 0
      ∧ (checkFeeds twoFeedsApp firstFetchFails []).sent = []
      ∧ (checkFeed twoFeedsApp [] (firstFetchFails 1) feed2).sent.length = 1 := by
  refine ⟨rfl, ?_, ?_, ?_, ?_⟩ <;> decide

/-- C6, refuted as stated: a feed that lists the item published an hour ago before the item
published two hours ago has both sent in that order, the later timestamp first. -/
theorem run_order_counterexample :
    publishedOf (checkFeed testApp [] (fetched [hourOldItem, twoHoursOldItem] testNow) feed1).sent
        = [testNow - Hour, testNow - 2 * Hour]
      ∧ ¬ List.Pairwise (fun x y => x ≤ y)
          (publishedOf
            (checkFeed testApp [] (fetched [hourOldItem, twoHoursOldItem] testNow) feed1).sent) := by
  decide

/-- C6 (amended): the items that one check of a feed sends to the webhook are sent in the order
in which the feed lists them (they form a sublist of the fetched item list); they are sent in
ascending `published_at` order whenever the feed lists its items in ascending `published_at`
order. -/
theorem run_sends_in_feed_order (a : app) (db : Bucket) (env : Env) (cf : configFeed)
    (feed : Feed) (h : env.parsed = some feed) :
    ((checkFeed a db env cf).sent.map Sent.item).Sublist feed.Items
      ∧ (List.Pairwise (fun x y => x ≤ y) (feed.Items.filterMap Item.PublishedParsed) →
          List.Pairwise (fun x y => x ≤ y) (publishedOf (checkFeed a db env cf).sent)) := by
  have hs : ((checkFeed a db env cf).sent.map Sent.item).Sublist feed.Items := by
    rw [checkFeed_sent a db env cf feed h]
    exact itemsLoop_sublist _ _ _ _ _ _ _
  refine ⟨hs, ?_⟩
  intro hp
  have : publishedOf (checkFeed a db env cf).sent
      = ((checkFeed a db env cf).sent.map Sent.item).filterMap Item.PublishedParsed := by
    unfold publishedOf
    rw [List.filterMap_map]
    rfl
  rw [this]
  exact hp.sublist (hs.filterMap _)

/-- C6 (amended), at a concrete feed: two items listed in ascending order. -/
theorem run_sends_in_feed_order_witness :
    (fetched [twoHoursOldItem, hourOldItem] testNow).parsed
        = some { Title := "Example", Items := [twoHoursOldItem, hourOldItem] }
      ∧ ((checkFeed testApp [] (fetched [twoHoursOldItem, hourOldItem] testNow) feed1).sent.map
          Sent.item).Sublist [twoHoursOldItem, hourOldItem] :=
  ⟨rfl, (run_sends_in_feed_order testApp [] (fetched [twoHoursOldItem, hourOldItem] testNow)
    feed1 { Title := "Example", Items := [twoHoursOldItem, hourOldItem] } rfl).1⟩

/-! ## Theorems: `NewApp` -/

/-- Lookup after assignment. -/
theorem mapGet_mapSet {V : Type} (m : GoMap V) (k k2 : String) (v : V) :
    mapGet (mapSet m k v) k2 = if k = k2 then some v else mapGet m k2 := by
  induction m with
  | nil => simp [mapSet, mapGet]
  | cons e m ih =>
    obtain ⟨k1, v1⟩ := e
    simp only [mapSet]
    by_cases h : k1 = k
    · subst h
      by_cases h2 : k1 = k2 <;> simp [mapGet, h2]
    · simp only [h, if_false, mapGet, ih]
      by_cases h1 : k1 = k2
      · subst h1
        simp [Ne.symm h]
      · simp [h1]

/-- Assigning `true` keeps a table all of whose values are `true` in that form. -/
theorem mapSet_all_true (m : GoMap Bool) (k : String) (h : ∀ e ∈ m, e.2 = true) :
    ∀ e ∈ mapSet m k true, e.2 = true := by
  induction m with
  | nil =>
    intro e he
    simp [mapSet] at he
    simp [he]
  | cons e0 m ih =>
    obtain ⟨k1, v1⟩ := e0
    intro e he
    simp only [mapSet] at he
    split at he
    · rcases List.mem_cons.mp he with he | he
      · simp [he]
      · exact h e (List.mem_cons_of_mem _ he)
    · rcases List.mem_cons.mp he with he | he
      · rw [he]
        exact h (k1, v1) (List.mem_cons_self _ _)
      · exact ih (fun x hx => h x (List.mem_cons_of_mem _ hx)) e he

/-- The table built by the first loop: a name is absent from it exactly when no configured
webhook has that name and the table before did not have it. -/
theorem buildWebhooks_none (ws : List configWebhook) :
    ∀ (m : GoMap String) (k : String),
      mapGet (buildWebhooks m ws) k = none
        ↔ (∀ w ∈ ws, w.Name ≠ k) ∧ mapGet m k = none := by
  induction ws with
  | nil =>
    intro m k
    simp [buildWebhooks]
  | cons w ws ih =>
    intro m k
    simp only [buildWebhooks]
    rw [ih, mapGet_mapSet]
    by_cases h : w.Name = k
    · simp [h]
    · simp [h]

/-- The table built by the first loop: every value in it is the URL of a configured webhook of
that name, or was in the table before. -/
theorem buildWebhooks_some (ws : List configWebhook) :
    ∀ (m : GoMap String) (k u : String),
      mapGet (buildWebhooks m ws) k = some u →
        (∃ w ∈ ws, w.Name = k ∧ w.URL = u) ∨ mapGet m k = some u := by
  induction ws with
  | nil =>
    intro m k u h
    exact Or.inr (by simpa [buildWebhooks] using h)
  | cons w ws ih =>
    intro m k u h
    simp only [buildWebhooks] at h
    rcases ih _ _ _ h with ⟨w2, hw2, h2⟩ | h2
    · exact Or.inl ⟨w2, List.mem_cons_of_mem _ hw2, h2⟩
    · rw [mapGet_mapSet] at h2
      by_cases hk : w.Name = k
      · rw [if_pos hk] at h2
        exact Or.inl ⟨w, List.mem_cons_self _ _, hk, Option.some.inj h2⟩
      · rw [if_neg hk] at h2
        exact Or.inr h2

/-- The second loop is fatal exactly when some feed names a webhook that the table lacks. -/
theorem markUsed_error (webhooks : GoMap String) (feeds : List configFeed) :
    ∀ (used : GoMap Bool),
      (∃ e, markUsed webhooks used feeds = Except.error e)
        ↔ ∃ f ∈ feeds, mapGet webhooks f.Webhook = none := by
  induction feeds with
  | nil =>
    intro used
    simp [markUsed]
  | cons x xs ih =>
    intro used
    unfold markUsed
    cases hx : mapGet webhooks x.Webhook with
    | none => simp [hx]
    | some u =>
      simp only [List.mem_cons, exists_eq_or_imp, hx]
      rw [ih]
      simp

/-- The second loop only ever stores the value `true`. -/
theorem markUsed_all_true (webhooks : GoMap String) (feeds : List configFeed) :
    ∀ (used used2 : GoMap Bool), (∀ e ∈ used, e.2 = true) →
      markUsed webhooks used feeds = Except.ok used2 → ∀ e ∈ used2, e.2 = true := by
  induction feeds with
  | nil =>
    intro used used2 h hm
    simp only [markUsed] at hm
    cases hm
    exact h
  | cons x xs ih =>
    intro used used2 h hm
    unfold markUsed at hm
    cases hx : mapGet webhooks x.Webhook with
    | none =>
      rw [hx] at hm
      cases hm
    | some u =>
      rw [hx] at hm
      exact ih _ _ (mapSet_all_true used x.Webhook h) hm

/-- The third loop warns about nothing when every value of the table is `true`. -/
theorem warnUnused_all_true (used : GoMap Bool) (h : ∀ e ∈ used, e.2 = true) :
    warnUnused used = [] := by
  induction used with
  | nil => rfl
  | cons e m ih =>
    obtain ⟨k, v⟩ := e
    have hv : v = true := h (k, v) (List.mem_cons_self _ _)
    subst hv
    simp only [warnUnused]
    exact ih (fun x hx => h x (List.mem_cons_of_mem _ hx))

/-- The function `NewApp` with its local definitions unfolded. -/
theorem NewApp_eq (config : configMain) :
    NewApp config
      = match markUsed (buildWebhooks [] config.Webhooks) [] config.Feeds with
        | Except.error e => Except.error e
        | Except.ok webhooksUsed =>
            Except.ok { app := { config := config,
                                 webhooks := buildWebhooks [] config.Webhooks },
                        warnings := warnUnused webhooksUsed } := rfl

/-- The app `testApp` is the one that `NewApp` returns for `testConfig`, and `twoFeedsApp` the
one that it returns for the configuration with the two feeds. -/
theorem NewApp_testConfig :
    NewApp testConfig = Except.ok { app := testApp, warnings := [] }
      ∧ NewApp { Feeds := [feed1, feed2], Webhooks := [hook1] }
          = Except.ok { app := twoFeedsApp, warnings := [] } :=
  ⟨rfl, rfl⟩

/-- Whatever the configuration, a `NewApp` that returns has emitted no warning. -/
theorem NewApp_never_warns (config : configMain) (r : NewAppResult)
    (h : NewApp config = Except.ok r) : r.warnings = [] := by
  rw [NewApp_eq] at h
  cases hm : markUsed (buildWebhooks [] config.Webhooks) [] config.Feeds with
  | error e =>
    rw [hm] at h
    cases h
  | ok used =>
    rw [hm] at h
    simp only at h
    cases h
    exact warnUnused_all_true used
      (markUsed_all_true _ _ [] used (by intro e he; cases he) hm)

/-- C5: `NewApp` aborts with a fatal configuration error if and only if some feed names a
webhook that is not among the configured webhook names; otherwise it returns an app, over the
given configuration, whose webhook table maps every configured webhook name to the URL of a
configured webhook of that name. -/
theorem NewApp_validates_webhooks (config : configMain) :
    ((∃ e, NewApp config = Except.error e)
        ↔ ∃ f ∈ config.Feeds, ∀ w ∈ config.Webhooks, w.Name ≠ f.Webhook)
      ∧ ((¬ ∃ f ∈ config.Feeds, ∀ w ∈ config.Webhooks, w.Name ≠ f.Webhook) →
          ∃ r, NewApp config = Except.ok r ∧ r.app.config = config
            ∧ ∀ w ∈ config.Webhooks, ∃ u, mapGet r.app.webhooks w.Name = some u
                ∧ ∃ w2 ∈ config.Webhooks, w2.Name = w.Name ∧ w2.URL = u) := by
  have hiff : (∃ e, NewApp config = Except.error e)
      ↔ ∃ f ∈ config.Feeds, ∀ w ∈ config.Webhooks, w.Name ≠ f.Webhook := by
    have hm := markUsed_error (buildWebhooks [] config.Webhooks) config.Feeds []
    have hb : ∀ k, mapGet (buildWebhooks [] config.Webhooks) k = none
        ↔ ∀ w ∈ config.Webhooks, w.Name ≠ k := by
      intro k
      rw [buildWebhooks_none]
      simp [mapGet]
    simp only [hb] at hm
    rw [← hm, NewApp_eq]
    cases markUsed (buildWebhooks [] config.Webhooks) [] config.Feeds with
    | error e => simp
    | ok used => simp
  refine ⟨hiff, ?_⟩
  intro hno
  have hok : ∃ r, NewApp config = Except.ok r := by
    cases hr : NewApp config with
    | error e => exact absurd (hiff.mp ⟨e, hr⟩) hno
    | ok r => exact ⟨r, rfl⟩
  obtain ⟨r, hr⟩ := hok
  have hw : r.app.config = config
      ∧ r.app.webhooks = buildWebhooks [] config.Webhooks := by
    rw [NewApp_eq] at hr
    cases hm : markUsed (buildWebhooks [] config.Webhooks) [] config.Feeds with
    | error e =>
      rw [hm] at hr
      cases hr
    | ok used =>
      rw [hm] at hr
      simp only at hr
      cases hr
      exact ⟨rfl, rfl⟩
  refine ⟨r, hr, hw.1, ?_⟩
  intro w hwm
  rw [hw.2]
  cases hg : mapGet (buildWebhooks [] config.Webhooks) w.Name with
  | none =>
    exact absurd rfl (((buildWebhooks_none config.Webhooks [] w.Name).mp hg).1 w hwm)
  | some u =>
    refine ⟨u, rfl, ?_⟩
    rcases buildWebhooks_some config.Webhooks [] w.Name u hg with h | h
    · exact h
    · simp [mapGet] at h

/-- C5, at two concrete configurations: the configuration of `TestApp` is accepted, and a
configuration whose feed names the unknown webhook `hook9` is fatal. -/
theorem NewApp_validates_webhooks_witness :
    (∃ e, NewApp unknownHookConfig = Except.error e)
      ∧ ∃ f ∈ unknownHookConfig.Feeds, ∀ w ∈ unknownHookConfig.Webhooks, w.Name ≠ f.Webhook :=
  ⟨⟨Fatal.invalidWebhook "hook9" "feed1", rfl⟩,
    (NewApp_validates_webhooks unknownHookConfig).1.mp
      ⟨Fatal.invalidWebhook "hook9" "feed1", rfl⟩⟩

/-- C10, evaluated at a failing input: the configuration of `TestApp` with the webhook `hook2`
added, which no feed names.  `NewApp` accepts the configuration and returns the app, but emits
no warning: its table `webhooksUsed` only ever receives the value `true`, for webhooks that are
used, so the loop that warns finds nothing. -/
theorem NewApp_unused_webhook_not_warned :
    hook2 ∈ unusedHookConfig.Webhooks
      ∧ (∀ f ∈ unusedHookConfig.Feeds, f.Webhook ≠ hook2.Name)
      ∧ NewApp unusedHookConfig
          = Except.ok
              { app := { config := unusedHookConfig,
                         webhooks := [("hook1", "https://www.example.com/hook"),
                                      ("hook2", "https://www.example.com/hook2")] },
                warnings := [] } := by
  refine ⟨by decide, by decide, rfl⟩

/-! ## Theorems: two polls in a row -/

/-- The local `newest` never decreases in the item loop. -/
theorem itemsLoop_newest_ge_init (clock : Nat → Time) (lastPublished : Time)
    (title url : String) (items : List Item) :
    ∀ (i : Nat) (newest : Time),
      newest ≤ (itemsLoop clock lastPublished title url i newest items).newest := by
  induction items with
  | nil =>
    intro i newest
    simp [itemsLoop]
  | cons item rest ih =>
    intro i newest
    unfold itemsLoop
    cases hp : item.PublishedParsed with
    | none => simp
    | some p =>
      simp only
      split
      · exact ih _ _
      · split
        · exact ih _ _
        · refine le_trans ?_ (ih _ _)
          by_cases h : After p newest = true
          · rw [if_pos h]
            have : newest < p := by simpa [After] using h
            exact le_of_lt this
          · rw [if_neg h]

/-- When every item carries a timestamp, the item loop does not panic. -/
theorem itemsLoop_not_panicked (clock : Nat → Time) (lastPublished : Time)
    (title url : String) (items : List Item) :
    ∀ (i : Nat) (newest : Time), (∀ it ∈ items, it.PublishedParsed ≠ none) →
      (itemsLoop clock lastPublished title url i newest items).panicked = false := by
  induction items with
  | nil =>
    intro i newest _
    simp [itemsLoop]
  | cons item rest ih =>
    intro i newest hall
    have hrest : ∀ it ∈ rest, it.PublishedParsed ≠ none :=
      fun it hit => hall it (List.mem_cons_of_mem _ hit)
    unfold itemsLoop
    cases hp : item.PublishedParsed with
    | none => exact absurd hp (hall item (List.mem_cons_self _ _))
    | some p =>
      simp only
      split
      · exact ih _ _ hrest
      · split
        · exact ih _ _ hrest
        · exact ih _ _ hrest

/-- When every item carries a timestamp, the final `newest` is not earlier than the timestamp of
any item that passes both checks of the loop. -/
theorem itemsLoop_newest_ge_passed (clock : Nat → Time) (lastPublished : Time)
    (title url : String) (items : List Item) :
    ∀ (i : Nat) (newest : Time), (∀ it ∈ items, it.PublishedParsed ≠ none) →
      ∀ (k : Nat) (it : Item) (p : Time), items[k]? = some it → it.PublishedParsed = some p →
        After p lastPublished = true →
        Before p (Add (clock (i + k)) (-oldest)) = false →
        p ≤ (itemsLoop clock lastPublished title url i newest items).newest := by
  induction items with
  | nil =>
    intro i newest _ k it p hk
    simp at hk
  | cons item rest ih =>
    intro i newest hall k it p hk hp ha hb
    have hrest : ∀ x ∈ rest, x.PublishedParsed ≠ none :=
      fun x hx => hall x (List.mem_cons_of_mem _ hx)
    cases k with
    | zero =>
      have hit : item = it := by simpa using hk
      subst hit
      unfold itemsLoop
      rw [hp]
      simp only [Nat.add_zero] at hb
      simp only [ha, hb, Bool.not_true, Bool.false_eq_true, if_false]
      refine le_trans ?_ (itemsLoop_newest_ge_init _ _ _ _ _ _ _)
      by_cases h : After p newest = true
      · rw [if_pos h]
      · rw [if_neg h]
        have : ¬ newest < p := by simpa [After] using h
        exact not_lt.mp this
    | succ k =>
      have hk2 : rest[k]? = some it := by simpa using hk
      have hb2 : Before p (Add (clock (i + 1 + k)) (-oldest)) = false := by
        have : i + 1 + k = i + (k + 1) := by omega
        rw [this]
        exact hb
      unfold itemsLoop
      cases hq : item.PublishedParsed with
      | none => exact absurd hq (hall item (List.mem_cons_self _ _))
      | some q =>
        simp only
        split
        · exact ih _ _ hrest k it p hk2 hp ha hb2
        · split
          · exact ih _ _ hrest k it p hk2 hp ha hb2
          · exact ih _ _ hrest k it p hk2 hp ha hb2

/-- The final `newest` is the initial one or the timestamp of an item that was sent. -/
theorem itemsLoop_newest_mem (clock : Nat → Time) (lastPublished : Time)
    (title url : String) (items : List Item) :
    ∀ (i : Nat) (newest : Time),
      (itemsLoop clock lastPublished title url i newest items).newest = newest
        ∨ ∃ e ∈ (itemsLoop clock lastPublished title url i newest items).sent,
            e.item.PublishedParsed
              = some (itemsLoop clock lastPublished title url i newest items).newest := by
  induction items with
  | nil =>
    intro i newest
    simp [itemsLoop]
  | cons item rest ih =>
    intro i newest
    unfold itemsLoop
    cases hp : item.PublishedParsed with
    | none => simp
    | some p =>
      simp only
      split
      · exact ih _ _
      · split
        · exact ih _ _
        · rcases ih (i + 1) (if After p newest = true then p else newest) with h | ⟨e, he, h⟩
          · by_cases hn : After p newest = true
            · right
              refine ⟨{ title := title, item := item, url := url }, List.mem_cons_self _ _, ?_⟩
              rw [if_pos hn] at h
              simp only [hn, if_true]
              rw [h]
              exact hp
            · left
              rw [if_neg hn] at h
              simp only [hn]
              exact h
          · right
            exact ⟨e, List.mem_cons_of_mem _ he, h⟩

/-- The stored timestamp read back after an assignment to the same key. -/
theorem readLastPublished_mapSet (db : Bucket) (url : String) (t : Time) :
    readLastPublished (mapSet db url (some t)) url = t := by
  unfold readLastPublished
  rw [mapGet_mapSet]
  simp

/-- No re-delivery of unchanged content when the timestamps are whole seconds: if every item of
the feed carries a published timestamp that is a whole number of seconds, the stored timestamp
before the first poll is not earlier than the zero `time.Time`, and no clock reading of the
second poll is earlier than the reading for the same item in the first poll, then the second of
two polls of the same item list sends nothing. -/
theorem second_poll_sends_nothing_whole_seconds (a : app) (db : Bucket) (cf : configFeed)
    (feed : Feed) (c1 c2 : Nat → Time) (d1 d2 : Bool)
    (hts : ∀ it ∈ feed.Items, ∃ p, it.PublishedParsed = some p ∧ Int.emod p Second = 0)
    (hclock : ∀ k, c1 k ≤ c2 k)
    (hdb : zeroTime ≤ readLastPublished db cf.URL) :
    (checkFeed a (checkFeed a db { parsed := some feed, clock := c1, done := d1 } cf).db
      { parsed := some feed, clock := c2, done := d2 } cf).sent = [] := by
  have hall : ∀ it ∈ feed.Items, it.PublishedParsed ≠ none := by
    intro it hit
    obtain ⟨p, hp, _⟩ := hts it hit
    simp [hp]
  rw [checkFeed_sent a _ { parsed := some feed, clock := c2, done := d2 } cf feed rfl]
  rw [List.eq_nil_iff_forall_not_mem]
  intro e he
  obtain ⟨k, p, hk, hp, ha, hb⟩ := itemsLoop_sent _ _ _ _ _ _ _ _ he
  simp only [Nat.zero_add] at hb
  -- the item was fresh at the first poll as well
  have hb1 : Before p (Add (c1 (0 + k)) (-oldest)) = false := by
    have h2 : ¬ p < c2 k + -oldest := by simpa [Before, Add] using hb
    have h1 : ¬ p < c1 k + -oldest := by
      intro h
      exact h2 (by linarith [hclock k])
    simpa [Before, Add] using h1
  -- what the first poll leaves in the store
  have hdb1 : (checkFeed a db { parsed := some feed, clock := c1, done := d1 } cf).db
      = if IsZero (itemsLoop c1 (readLastPublished db cf.URL) feed.Title
            ((mapGet a.webhooks cf.Webhook).getD "") 0 zeroTime feed.Items).newest = true
        then db
        else mapSet db cf.URL (some (formatRFC3339
          (itemsLoop c1 (readLastPublished db cf.URL) feed.Title
            ((mapGet a.webhooks cf.Webhook).getD "") 0 zeroTime feed.Items).newest)) := by
    unfold checkFeed
    simp only [itemsLoop_not_panicked c1 _ _ _ feed.Items 0 zeroTime hall]
    by_cases hz : IsZero (itemsLoop c1 (readLastPublished db cf.URL) feed.Title
        ((mapGet a.webhooks cf.Webhook).getD "") 0 zeroTime feed.Items).newest = true
    · simp [hz]
    · simp [hz]
  have hge := itemsLoop_newest_ge_passed c1 (readLastPublished db cf.URL) feed.Title
    ((mapGet a.webhooks cf.Webhook).getD "") feed.Items 0 zeroTime hall k e.item p hk hp
  rw [hdb1] at ha
  by_cases hz : IsZero (itemsLoop c1 (readLastPublished db cf.URL) feed.Title
      ((mapGet a.webhooks cf.Webhook).getD "") 0 zeroTime feed.Items).newest = true
  · rw [if_pos hz] at ha
    have hle := hge ha hb1
    have hzero : (itemsLoop c1 (readLastPublished db cf.URL) feed.Title
        ((mapGet a.webhooks cf.Webhook).getD "") 0 zeroTime feed.Items).newest = zeroTime := by
      simpa [IsZero] using hz
    have hlt : readLastPublished db cf.URL < p := by simpa [After] using ha
    rw [hzero] at hle
    linarith
  · rw [if_neg hz, readLastPublished_mapSet] at ha
    have hnz : (itemsLoop c1 (readLastPublished db cf.URL) feed.Title
        ((mapGet a.webhooks cf.Webhook).getD "") 0 zeroTime feed.Items).newest ≠ zeroTime := by
      simpa [IsZero] using hz
    rcases itemsLoop_newest_mem c1 (readLastPublished db cf.URL) feed.Title
      ((mapGet a.webhooks cf.Webhook).getD "") feed.Items 0 zeroTime with h | ⟨e1, he1, h⟩
    · exact hnz h
    · obtain ⟨k1, p1, hk1, hp1, ha1, _⟩ := itemsLoop_sent _ _ _ _ _ _ _ _ he1
      rw [h] at hp1
      have hp1eq := Option.some.inj hp1
      obtain ⟨q, hq, hmod⟩ := hts e1.item (List.getElem?_mem hk1)
      rw [h] at hq
      have hqeq := Option.some.inj hq
      have hfmt : formatRFC3339 (itemsLoop c1 (readLastPublished db cf.URL) feed.Title
          ((mapGet a.webhooks cf.Webhook).getD "") 0 zeroTime feed.Items).newest
          = (itemsLoop c1 (readLastPublished db cf.URL) feed.Title
          ((mapGet a.webhooks cf.Webhook).getD "") 0 zeroTime feed.Items).newest := by
        unfold formatRFC3339
        rw [hqeq, hmod]
        simp
      rw [hfmt] at ha
      have hlt : (itemsLoop c1 (readLastPublished db cf.URL) feed.Title
          ((mapGet a.webhooks cf.Webhook).getD "") 0 zeroTime feed.Items).newest < p := by
        simpa [After] using ha
      have hlt1 : readLastPublished db cf.URL < p1 := by simpa [After] using ha1
      have hap : After p (readLastPublished db cf.URL) = true := by
        have : readLastPublished db cf.URL < p := by
          rw [hp1eq] at hlt
          exact lt_trans hlt1 hlt
        simpa [After] using this
      have hle := hge hap hb1
      linarith

end Feedforward
